import Mathlib

/-!
Verification of the download core of `app-builder` (pkg/download) against its
specification.  The Go source is embedded shallowly: pure computations become
Lean functions, the filesystem becomes an explicit map from names to byte
lists, and external collaborators (the HTTP server, the SHA-512 primitive,
the CPU count) become explicit parameters.
-/

set_option maxHeartbeats 1000000
set_option maxRecDepth 8192

namespace AppBuilder

/-- One byte range of a download (struct `Part`, fields as used by
`ActualLocation.go` / `downloader.go` and described in the spec §3:
`name`, `start`, `end` (exclusive, `-1` sentinel), `skip`, `failed`). -/
structure Part where
  Name : String
  Start : Int
  End : Int
  Skip : Bool
  isFail : Bool
deriving DecidableEq, Repr

/-- `ActualLocation` (ActualLocation.go lines 17-24): resolved download
target.  `NewResolvedLocation` leaves `StatusCode` and `Parts` at their
zero values. -/
structure ActualLocation where
  Url : String
  OutFileName : String
  isAcceptRanges : Bool
  StatusCode : Int
  ContentLength : Int
  Parts : List Part
deriving DecidableEq, Repr

/-- `NewResolvedLocation` (ActualLocation.go lines 26-33). -/
def NewResolvedLocation (url : String) (contentLength : Int) (outFileName : String)
    (isAcceptRanges : Bool) : ActualLocation :=
  { Url := url
    OutFileName := outFileName
    isAcceptRanges := isAcceptRanges
    StatusCode := 0
    ContentLength := contentLength
    Parts := [] }

/-- `getMaxPartCount` (downloader.go lines 30-38); `runtime.NumCPU()` is an
environment input and becomes the parameter `numCPU`. -/
def getMaxPartCount (numCPU : Nat) : Nat :=
  let maxPartCount := 8
  let result := numCPU * 2
  if result > maxPartCount then maxPartCount else result

/-- `minPartSize` constant (downloader.go line 26): 5 MiB. -/
def minPartSize : Int := 5 * 1024 * 1024

/-- The part-building loop of `computeParts` (ActualLocation.go lines 63-84).
The Go `for i := 0; i < partCount; i++` loop is rendered with an explicit
iteration count `remaining = partCount - i`; `i` and the running `start`
are threaded exactly as in the source. -/
def buildPartsAux (out : String) (contentLength partSize : Int) (partCount : Nat) :
    Nat → Nat → Int → List Part
  | 0, _, _ => []
  | Nat.succ remaining, i, start =>
    let e0 := start + partSize
    let e := if e0 > contentLength ∨ i = partCount - 1 then contentLength else e0
    let name := if i = 0 then out else out ++ ".part" ++ toString i
    { Name := name, Start := start, End := e, Skip := false, isFail := false } ::
      buildPartsAux out contentLength partSize partCount remaining (i + 1) e

/-- The `partCount` computation of `computeParts`
(ActualLocation.go lines 47-57). -/
def computePartCount (contentLength minPS : Int) (numCPU : Nat) : Nat :=
  if contentLength ≤ minPS then 1
  else
    let partCount := (contentLength / minPS).toNat
    let maxPartCount := getMaxPartCount numCPU
    if partCount > maxPartCount then maxPartCount else partCount

/-- `computeParts` (ActualLocation.go lines 35-85): partitions the resolved
content length into byte-range parts. -/
def computeParts (contentLength minPS : Int) (outFileName : String) (numCPU : Nat) :
    List Part :=
  if contentLength < 0 then
    [{ Name := outFileName, Start := 0, End := -1, Skip := false, isFail := false }]
  else
    let partCount := computePartCount contentLength minPS numCPU
    let partSize := contentLength / (partCount : Int)
    buildPartsAux outFileName contentLength partSize partCount partCount 0 0

/-- `deleteUnnecessaryParts` (ActualLocation.go lines 87-93): the backwards
deletion loop removes exactly the parts marked `Skip`. -/
def deleteUnnecessaryParts (parts : List Part) : List Part :=
  parts.filter (fun p => !p.Skip)

/-- `maxRedirects` constant (downloader.go line 25). -/
def maxRedirects : Nat := 10

/-- What the HTTP client observes for one request (downloader.go lines
152-173): either a transport failure, or a response carrying a status code,
an optional `Location` header, Go's `ContentLength` field (`-1` when the
header is absent) and the raw `Accept-Ranges` header value. -/
inductive HttpResult where
  | transportError
  | response (statusCode : Int) (location : Option String) (contentLength : Int)
      (acceptRanges : String)
deriving DecidableEq, Repr

/-- The errors `follow` can return. -/
inductive FollowError where
  | network
  | noLocation
  | httpStatus (code : Int)
  | tooManyRedirects
deriving DecidableEq, Repr

/-- `isRedirect` (downloader.go lines 216-218): `status > 299 && status < 400`. -/
def isRedirect (status : Int) : Prop :=
  status > 299 ∧ status < 400

instance (status : Int) : Decidable (isRedirect status) := by
  unfold isRedirect
  infer_instance

/-- The `follow` loop (downloader.go lines 132-206).  The server is an
explicit function from the current URL to the observed `HttpResult`.  The
loop issues one request per iteration (`requests` counts them), follows the
`Location` header on a redirect status, increments `redirectsFollowed` and
fails once it exceeds `maxRedirects`.  The Go `for {}` loop terminates only
through that counter; it is rendered with an iteration budget
`fuel = maxRedirects + 1 - redirectsFollowed`, which the counter check keeps
from ever reaching 0. -/
def followAux (server : String → HttpResult) (outFileName : String) :
    Nat → String → Nat → Nat → (Except FollowError ActualLocation) × Nat
  | 0, _, _, requests => (Except.error FollowError.tooManyRedirects, requests)
  | Nat.succ fuel, currentUrl, redirectsFollowed, requests =>
    match server currentUrl with
    | HttpResult.transportError => (Except.error FollowError.network, requests + 1)
    | HttpResult.response status location contentLength acceptRanges =>
      if isRedirect status then
        match location with
        | none => (Except.error FollowError.noLocation, requests + 1)
        | some loc =>
          if redirectsFollowed + 1 > maxRedirects then
            (Except.error FollowError.tooManyRedirects, requests + 1)
          else
            followAux server outFileName fuel loc (redirectsFollowed + 1) (requests + 1)
      else if status ≠ 200 then
        (Except.error (FollowError.httpStatus status), requests + 1)
      else
        (Except.ok
          (NewResolvedLocation currentUrl contentLength outFileName
            (decide (acceptRanges ≠ ""))), requests + 1)

/-- `follow` (downloader.go lines 132-206), returning the result together
with the number of requests issued. -/
def follow (server : String → HttpResult) (initialUrl outFileName : String) :
    (Except FollowError ActualLocation) × Nat :=
  followAux server outFileName (maxRedirects + 1) initialUrl 0 0

/-- A server response that `follow` treats as a redirect it can follow:
a redirect status together with a `Location` header. -/
def isFollowableRedirect : HttpResult → Prop
  | HttpResult.response status (some _) _ _ => isRedirect status
  | _ => False

/-- The filesystem as observed by `concatenateParts`: a map from file names
to byte contents (bytes as `Nat`, values < 256 where it matters). -/
def FileSys : Type := String → Option (List Nat)

/-- The standard base64 alphabet used by Go's `base64.StdEncoding`
(`A-Z`, `a-z`, `0-9`, `+`, `/`), as a function from the 6-bit value. -/
def base64Char (n : Nat) : Char :=
  if n < 26 then Char.ofNat (65 + n)
  else if n < 52 then Char.ofNat (97 + (n - 26))
  else if n < 62 then Char.ofNat (48 + (n - 52))
  else if n = 62 then '+'
  else '/'

/-- `base64.StdEncoding.EncodeToString` over a byte list: 3 input bytes per
4 output characters, `=`-padded. -/
def base64EncodeList : List Nat → List Char
  | [] => []
  | [b1] => [base64Char (b1 / 4), base64Char (b1 % 4 * 16), '=', '=']
  | [b1, b2] =>
    [base64Char (b1 / 4), base64Char (b1 % 4 * 16 + b2 / 16), base64Char (b2 % 16 * 4), '=']
  | b1 :: b2 :: b3 :: rest =>
    base64Char (b1 / 4) :: base64Char (b1 % 4 * 16 + b2 / 16) ::
      base64Char (b2 % 16 * 4 + b3 / 64) :: base64Char (b3 % 64) :: base64EncodeList rest

def base64Encode (l : List Nat) : String := String.mk (base64EncodeList l)

/-- The lowercase hex digit for a 4-bit value (`0-9`, `a-f`). -/
def hexDigit (n : Nat) : Char :=
  if n < 10 then Char.ofNat (48 + n) else Char.ofNat (87 + n)

/-- `hex.EncodeToString` over a byte list: two lowercase hex digits per byte. -/
def hexEncodeList : List Nat → List Char
  | [] => []
  | b :: rest => hexDigit (b / 16) :: hexDigit (b % 16) :: hexEncodeList rest

def hexEncode (l : List Nat) : String := String.mk (hexEncodeList l)

/-- Go's `len(expectedSha512) != 0` test (ActualLocation.go line 96). -/
def hasCheckSum (expectedSha512 : String) : Prop := expectedSha512.length ≠ 0

instance (s : String) : Decidable (hasCheckSum s) := by
  unfold hasCheckSum
  infer_instance

/-- The `fileMode` values selected by `concatenateParts`
(ActualLocation.go lines 98-111). -/
inductive FileMode where
  | rdonly
  | appendRdwr
  | appendWronly
deriving DecidableEq, Repr

/-- The `fileMode` selection of `concatenateParts` (ActualLocation.go lines
98-111).  `none` is the early `return nil` taken when no checksum was
requested and there is a single part: no file is opened at all. -/
def concatFileMode (expectedSha512 : String) (partCount : Nat) : Option FileMode :=
  if hasCheckSum expectedSha512 then
    if partCount = 1 then some FileMode.rdonly else some FileMode.appendRdwr
  else
    if partCount = 1 then none else some FileMode.appendWronly

/-- The merge loop of `concatenateParts` (ActualLocation.go lines 129-156):
for each part file after the first, open it (failing if absent), append its
bytes to the open output file `totalName`, tee the bytes into the running
SHA-512 state when a checksum was requested (`tee`), and remove the part
file.  Returns the loop outcome, the resulting filesystem and the bytes fed
to the hash so far. -/
def concatLoop (tee : Bool) (totalName : String) :
    List Part → FileSys → List Nat → (Except String Unit) × FileSys × List Nat
  | [], fs, hashed => (Except.ok (), fs, hashed)
  | p :: rest, fs, hashed =>
    match fs p.Name with
    | none => (Except.error ("open " ++ p.Name ++ ": no such file"), fs, hashed)
    | some content =>
      let fs1 : FileSys :=
        fun n => if n = totalName then some (((fs totalName).getD []) ++ content) else fs n
      let hashed1 := if tee then hashed ++ content else hashed
      let fs2 : FileSys := fun n => if n = p.Name then none else fs1 n
      concatLoop tee totalName rest fs2 hashed1

/-- `concatenateParts` (ActualLocation.go lines 95-166).  The SHA-512
primitive from `crypto/sha512` is the explicit parameter `sha512Sum`
(streaming a hash is hashing the concatenation, so the model accumulates
the teed bytes and digests them at the end, exactly where the Go code calls
`inputHash.Sum(nil)`).  Opening a missing file fails; `os.Remove` failures
are only logged in Go and the model's removal always succeeds.  With no
checksum requested and a single part the function returns before touching
any file.  An empty part list would panic in Go (`Parts[0]` out of range)
and is modelled as an error. -/
def concatenateParts (sha512Sum : List Nat → List Nat) (parts : List Part)
    (expectedSha512 : String) (fs : FileSys) : (Except String Unit) × FileSys :=
  if ¬ hasCheckSum expectedSha512 ∧ parts.length = 1 then
    (Except.ok (), fs)
  else
    match parts with
    | [] => (Except.error "runtime error: index out of range", fs)
    | p0 :: rest =>
      match fs p0.Name with
      | none => (Except.error ("open " ++ p0.Name ++ ": no such file"), fs)
      | some b0 =>
        let hashed0 := if hasCheckSum expectedSha512 then b0 else []
        match concatLoop (decide (hasCheckSum expectedSha512)) p0.Name rest fs hashed0 with
        | (Except.error e, fs1, _) => (Except.error e, fs1)
        | (Except.ok _, fs1, hashed) =>
          if hasCheckSum expectedSha512 then
            let actualCheckSum := base64Encode (sha512Sum hashed)
            if actualCheckSum ≠ expectedSha512 then
              (Except.error ("sha512 checksum mismatch, expected " ++ expectedSha512 ++
                ", got " ++ actualCheckSum), fs1)
            else
              (Except.ok (), fs1)
          else
            (Except.ok (), fs1)

/-- Modelled from the spec: `util.MapAsyncConcurrency` lives in package
`pkg/util`, which is not under src/.  Spec §4.3 (ConcurrencyLimiter): all
tasks are attempted even after one fails, "but the first error is captured
and returned after all tasks finish".  Task outcomes are listed in dispatch
(index) order; the model returns the first error among them, or `none`. -/
def MapAsyncConcurrency : List (Option String) → Option String
  | [] => none
  | none :: rest => MapAsyncConcurrency rest
  | some e :: _ => some e

/-- The failure-handling tail of `DownloadResolved` (downloader.go lines
98-129), as a function of the outcome of each part download (`none` means
the part succeeded, `some e` that it failed with `e`; a failing part also
sets its `isFail` flag, lines 101-108).  The Go code runs the parts through
`util.MapAsyncConcurrency`, returns early with the first error when one
occurred (lines 113-115), and only after that walks the parts and invokes
`cancel()` for a part marked `isFail` (lines 117-122).  Result: (whether
`cancel()` was invoked, the surfaced error). -/
def downloadResolvedOutcome (partResults : List (Option String)) : Bool × Option String :=
  match MapAsyncConcurrency partResults with
  | some e => (false, some e)
  | none => (partResults.any (fun r => r.isSome), none)

theorem getLastOpt_cons_of_ne_nil {α : Type} (a : α) {l : List α} (h : l ≠ []) :
    (a :: l).getLast? = l.getLast? := by
  cases l with
  | nil => exact absurd rfl h
  | cons b t => rw [List.getLast?_cons_cons]

theorem dropLast_cons_of_ne_nil {α : Type} (a : α) {l : List α} (h : l ≠ []) :
    (a :: l).dropLast = a :: l.dropLast := by
  cases l with
  | nil => exact absurd rfl h
  | cons b t => rfl

theorem buildPartsAux_length (out : String) (cl psz : Int) (pc : Nat) :
    ∀ rem i start, (buildPartsAux out cl psz pc rem i start).length = rem := by
  intro rem
  induction rem with
  | zero => intro i start; rfl
  | succ n ih => intro i start; simp [buildPartsAux, ih]

theorem buildPartsAux_head_start (out : String) (cl psz : Int) (pc : Nat)
    (rem i : Nat) (start : Int) (h : rem ≠ 0) :
    ((buildPartsAux out cl psz pc rem i start).head?).map Part.Start = some start := by
  cases rem with
  | zero => exact absurd rfl h
  | succ n => simp [buildPartsAux]

theorem buildPartsAux_chain (out : String) (cl psz : Int) (pc : Nat) :
    ∀ rem i start,
      List.Chain' (fun a b => b.Start = a.End) (buildPartsAux out cl psz pc rem i start) := by
  intro rem
  induction rem with
  | zero => intro i start; simp [buildPartsAux]
  | succ n ih =>
    intro i start
    rw [buildPartsAux, List.chain'_cons']
    refine ⟨?_, ih _ _⟩
    intro b hb
    cases n with
    | zero => simp [buildPartsAux] at hb
    | succ m =>
      simp only [buildPartsAux, List.head?_cons, Option.mem_def, Option.some.injEq] at hb
      subst hb
      rfl

theorem buildPartsAux_bounds (out : String) (cl psz : Int) (pc : Nat) (hpsz : 0 ≤ psz) :
    ∀ rem i start, 0 ≤ start → start ≤ cl →
      ∀ p ∈ buildPartsAux out cl psz pc rem i start,
        0 ≤ p.Start ∧ p.Start ≤ p.End ∧ p.End ≤ cl := by
  intro rem
  induction rem with
  | zero => intro i start _ _ p hp; simp [buildPartsAux] at hp
  | succ n ih =>
    intro i start h0 h1 p hp
    rw [buildPartsAux] at hp
    have hcase : start ≤ (if start + psz > cl ∨ i = pc - 1 then cl else start + psz) ∧
        (if start + psz > cl ∨ i = pc - 1 then cl else start + psz) ≤ cl := by
      by_cases hc : start + psz > cl ∨ i = pc - 1
      · rw [if_pos hc]; omega
      · rw [if_neg hc]; push_neg at hc; omega
    rcases List.mem_cons.mp hp with h | h
    · subst h
      exact ⟨h0, hcase.1, hcase.2⟩
    · exact ih (i + 1) _ (le_trans h0 hcase.1) hcase.2 p h

theorem buildPartsAux_getLast_end (out : String) (cl psz : Int) (pc : Nat) :
    ∀ rem i start, rem ≠ 0 → i + rem = pc →
      ((buildPartsAux out cl psz pc rem i start).getLast?).map Part.End = some cl := by
  intro rem
  induction rem with
  | zero => intro i start h; exact absurd rfl h
  | succ n ih =>
    intro i start _ hpc
    cases n with
    | zero =>
      have hi : i = pc - 1 := by omega
      simp [buildPartsAux, hi]
    | succ m =>
      rw [buildPartsAux]
      have hne : buildPartsAux out cl psz pc (m + 1) (i + 1)
          (if start + psz > cl ∨ i = pc - 1 then cl else start + psz) ≠ [] := by
        apply List.ne_nil_of_length_pos
        rw [buildPartsAux_length]
        omega
      rw [getLastOpt_cons_of_ne_nil _ hne]
      exact ih (i + 1) _ (by omega) (by omega)

theorem buildPartsAux_width (out : String) (cl psz : Int) (pc : Nat) (hpsz : 0 ≤ psz)
    (hmul : (pc : Int) * psz ≤ cl) :
    ∀ rem i start, i + rem = pc → start = (i : Int) * psz →
      ∀ p ∈ (buildPartsAux out cl psz pc rem i start).dropLast, p.End - p.Start = psz := by
  intro rem
  induction rem with
  | zero => intro i start _ _ p hp; simp [buildPartsAux] at hp
  | succ n ih =>
    intro i start hpc hstart
    cases n with
    | zero =>
      intro p hp
      simp [buildPartsAux] at hp
    | succ m =>
      intro p hp
      have hcond : ¬ (start + psz > cl ∨ i = pc - 1) := by
        have hle : ((i : Int) + 1) * psz ≤ (pc : Int) * psz := by
          have : ((i : Int) + 1) ≤ (pc : Int) := by exact_mod_cast Nat.le_of_lt (by omega)
          exact mul_le_mul_of_nonneg_right this hpsz
        push_neg
        constructor
        · nlinarith [hle, hmul]
        · omega
      rw [buildPartsAux] at hp
      simp only [if_neg hcond] at hp
      have hne : buildPartsAux out cl psz pc (m + 1) (i + 1) (start + psz) ≠ [] := by
        apply List.ne_nil_of_length_pos
        rw [buildPartsAux_length]
        omega
      rw [dropLast_cons_of_ne_nil _ hne] at hp
      rcases List.mem_cons.mp hp with h | h
      · subst h; ring
      · refine ih (i + 1) (start + psz) (by omega) (by push_cast; rw [hstart]; ring) p h

theorem getMaxPartCount_pos (numCPU : Nat) (h : 1 ≤ numCPU) : 1 ≤ getMaxPartCount numCPU := by
  simp only [getMaxPartCount]
  split <;> omega

theorem computePartCount_pos (cl mps : Int) (numCPU : Nat) (hcl : 0 ≤ cl) (hmps : 0 < mps)
    (hcpu : 1 ≤ numCPU) : 1 ≤ computePartCount cl mps numCPU := by
  have hm := getMaxPartCount_pos numCPU hcpu
  unfold computePartCount
  split
  · exact le_refl 1
  · next hgt =>
    dsimp only
    have h1 : (1 : Int) ≤ cl / mps := by
      rw [Int.le_ediv_iff_mul_le hmps]; omega
    split <;> omega

theorem computePartCount_le (cl mps : Int) (numCPU : Nat) (hcpu : 1 ≤ numCPU) :
    computePartCount cl mps numCPU ≤ getMaxPartCount numCPU := by
  have hm := getMaxPartCount_pos numCPU hcpu
  unfold computePartCount
  split
  · omega
  · dsimp only; split <;> omega

theorem computePartCount_eq_clamp (cl mps : Int) (numCPU : Nat) (hcl : 0 ≤ cl)
    (hmps : 0 < mps) (hcpu : 1 ≤ numCPU) :
    computePartCount cl mps numCPU =
      max 1 (min (cl / mps).toNat (getMaxPartCount numCPU)) := by
  have hm := getMaxPartCount_pos numCPU hcpu
  unfold computePartCount
  split
  · next hle =>
    rcases lt_or_eq_of_le hle with hlt | heq
    · have h0 : cl / mps = 0 := Int.ediv_eq_zero_of_lt hcl hlt
      rw [h0]; omega
    · have h1 : cl / mps = 1 := by rw [heq]; exact Int.ediv_self (ne_of_gt hmps)
      rw [h1]; omega
  · next hgt =>
    dsimp only
    have h1 : (1 : Int) ≤ cl / mps := by
      rw [Int.le_ediv_iff_mul_le hmps]; omega
    split <;> omega

theorem partSize_nonneg (cl : Int) (pc : Nat) (hcl : 0 ≤ cl) :
    0 ≤ cl / (pc : Int) :=
  Int.ediv_nonneg hcl (by exact_mod_cast Nat.zero_le pc)

theorem partCount_mul_partSize_le (cl : Int) (pc : Nat) (hcl : 0 ≤ cl) (hpc : 1 ≤ pc) :
    (pc : Int) * (cl / (pc : Int)) ≤ cl := by
  have hne : (pc : Int) ≠ 0 := Int.natCast_ne_zero.mpr (by omega)
  have hmod := Int.emod_nonneg cl hne
  have hdiv := Int.ediv_add_emod cl (pc : Int)
  linarith

theorem followAux_always_redirect (server : String → HttpResult) (out : String)
    (h : ∀ u, isFollowableRedirect (server u)) :
    ∀ fuel rf req u, fuel + rf = maxRedirects + 1 →
      followAux server out fuel u rf req =
        (Except.error FollowError.tooManyRedirects, req + fuel) := by
  intro fuel
  induction fuel with
  | zero => intro rf req u _; rfl
  | succ n ih =>
    intro rf req u hinv
    have hu := h u
    rcases hsrv : server u with _ | ⟨status, location, contentLength, acceptRanges⟩
    · rw [hsrv] at hu
      exact absurd hu (by simp [isFollowableRedirect])
    · rw [hsrv] at hu
      rcases location with _ | loc
      · exact absurd hu (by simp [isFollowableRedirect])
      · have hred : isRedirect status := hu
        rw [followAux, hsrv]
        dsimp only
        rw [if_pos hred]
        cases n with
        | zero =>
          rw [if_pos (by omega : rf + 1 > maxRedirects)]
        | succ m =>
          rw [if_neg (by omega : ¬ rf + 1 > maxRedirects),
            ih (rf + 1) (req + 1) loc (by omega)]
          refine congrArg _ (by omega)

/-- C3: for every server that always answers with a followable redirect,
`follow` fails with the too-many-redirects error and issues exactly 11
requests: it follows 10 redirects and, on observing the 11th redirect
response, returns the error instead of following it. -/
theorem follow_always_redirect_eleven_requests (server : String → HttpResult)
    (initialUrl out : String) (h : ∀ u, isFollowableRedirect (server u)) :
    follow server initialUrl out = (Except.error FollowError.tooManyRedirects, 11) := by
  unfold follow
  rw [followAux_always_redirect server out h (maxRedirects + 1) 0 0 initialUrl (by omega)]
  rfl

theorem follow_always_redirect_eleven_requests_witness :
    follow (fun _ => HttpResult.response 302 (some "next") (-1) "") "u" "o" =
      (Except.error FollowError.tooManyRedirects, 11) :=
  follow_always_redirect_eleven_requests (fun _ => HttpResult.response 302 (some "next") (-1) "")
    "u" "o" (fun _ => by simp [isFollowableRedirect, isRedirect])

theorem hasCheckSum_of_ne_empty {s : String} (h : s ≠ "") : hasCheckSum s := by
  unfold hasCheckSum
  cases s with
  | mk data =>
    cases data with
    | nil => exact absurd rfl h
    | cons c cs => simp [String.length_mk]

theorem not_hasCheckSum_empty : ¬ hasCheckSum "" := by
  decide

theorem forall2_fs_congr {fs fs' : FileSys} :
    ∀ {rest : List Part} {cs : List (List Nat)},
      List.Forall₂ (fun p c => fs p.Name = some c) rest cs →
      (∀ q ∈ rest, fs' q.Name = fs q.Name) →
      List.Forall₂ (fun p c => fs' p.Name = some c) rest cs := by
  intro rest cs hall
  induction hall with
  | nil => intro _; exact List.Forall₂.nil
  | cons hp htail ih =>
    intro h
    exact List.Forall₂.cons (by rw [h _ (List.mem_cons_self _ _)]; exact hp)
      (ih (fun q hq => h q (List.mem_cons_of_mem _ hq)))

theorem concatLoop_ok (totalName : String) :
    ∀ (rest : List Part) (contents : List (List Nat)) (fs : FileSys) (t hashed : List Nat),
      fs totalName = some t →
      List.Forall₂ (fun p c => fs p.Name = some c) rest contents →
      (∀ q ∈ rest, q.Name ≠ totalName) →
      (rest.map Part.Name).Nodup →
      ∃ fsF, concatLoop true totalName rest fs hashed =
          (Except.ok (), fsF, hashed ++ contents.flatten) ∧
        fsF totalName = some (t ++ contents.flatten) := by
  intro rest
  induction rest with
  | nil =>
    intro contents fs t hashed htot hall _ _
    cases hall
    exact ⟨fs, by simp [concatLoop], by simp [htot]⟩
  | cons p rest ih =>
    intro contents fs t hashed htot hall hne hnodup
    cases hall with
    | cons hp htail =>
      rename_i c cs
      have hpt : p.Name ≠ totalName := hne p (List.mem_cons_self p rest)
      have hnotmem : p.Name ∉ rest.map Part.Name := (List.nodup_cons.mp hnodup).1
      have hnodup' : (rest.map Part.Name).Nodup := (List.nodup_cons.mp hnodup).2
      have hne' : ∀ q ∈ rest, q.Name ≠ totalName := fun q hq => hne q (List.mem_cons_of_mem p hq)
      have hqn : ∀ q ∈ rest, q.Name ≠ p.Name := by
        intro q hq hq'
        exact hnotmem (hq' ▸ List.mem_map_of_mem Part.Name hq)
      rw [concatLoop, hp]
      dsimp only
      rw [List.flatten_cons, ← List.append_assoc, ← List.append_assoc]
      refine ih cs _ (t ++ c) (hashed ++ c) ?_ ?_ hne' hnodup'
      · have h1 : totalName ≠ p.Name := Ne.symm hpt
        simp [h1, htot]
      · refine @forall2_fs_congr fs
          (fun n => if n = p.Name then none
            else if n = totalName then some ((fs totalName).getD [] ++ c) else fs n)
          rest cs htail ?_
        intro q hq
        simp [hqn q hq, hne' q hq]

/-- C4: for every download whose supplied expected SHA-512 string is
non-empty and does not match the digest computed over the assembled bytes,
`concatenateParts` returns the checksum-mismatch error rather than success,
and the assembled output is not silently deleted before the mismatch is
reported: the output file (the first part's name) still contains the wrong
(assembled) bytes. -/
theorem concatenateParts_checksum_mismatch_keeps_output
    (sha512Sum : List Nat → List Nat) (p0 : Part) (rest : List Part)
    (contents : List (List Nat)) (fs : FileSys) (b0 : List Nat) (expected : String)
    (hb0 : fs p0.Name = some b0)
    (hall : List.Forall₂ (fun p c => fs p.Name = some c) rest contents)
    (hnodup : ((p0 :: rest).map Part.Name).Nodup)
    (hne : expected ≠ "")
    (hmm : base64Encode (sha512Sum (b0 ++ contents.flatten)) ≠ expected) :
    (concatenateParts sha512Sum (p0 :: rest) expected fs).1 =
      Except.error ("sha512 checksum mismatch, expected " ++ expected ++ ", got " ++
        base64Encode (sha512Sum (b0 ++ contents.flatten))) ∧
    (concatenateParts sha512Sum (p0 :: rest) expected fs).2 p0.Name =
      some (b0 ++ contents.flatten) := by
  have hcs : hasCheckSum expected := hasCheckSum_of_ne_empty hne
  have hnodup0 : p0.Name ∉ rest.map Part.Name := by
    simp only [List.map_cons, List.nodup_cons] at hnodup
    exact hnodup.1
  have hnodup' : (rest.map Part.Name).Nodup := by
    simp only [List.map_cons, List.nodup_cons] at hnodup
    exact hnodup.2
  have hneq : ∀ q ∈ rest, q.Name ≠ p0.Name := by
    intro q hq hq'
    exact hnodup0 (hq' ▸ List.mem_map_of_mem Part.Name hq)
  obtain ⟨fsF, hloop, hlook⟩ :=
    concatLoop_ok p0.Name rest contents fs b0 b0 hb0 hall hneq hnodup'
  have hstep : concatenateParts sha512Sum (p0 :: rest) expected fs =
      (Except.error ("sha512 checksum mismatch, expected " ++ expected ++ ", got " ++
        base64Encode (sha512Sum (b0 ++ contents.flatten))), fsF) := by
    simp [concatenateParts, hcs, hb0, hloop, hmm]
  rw [hstep]
  exact ⟨rfl, hlook⟩

theorem concatenateParts_checksum_mismatch_keeps_output_witness :
    (concatenateParts (fun _ => [])
        [{ Name := "out", Start := 0, End := 1, Skip := false, isFail := false },
         { Name := "out.part1", Start := 1, End := 2, Skip := false, isFail := false }]
        "x"
        (fun n => if n = "out" then some [7] else
          if n = "out.part1" then some [8] else none)).1 =
      Except.error ("sha512 checksum mismatch, expected " ++ "x" ++ ", got " ++
        base64Encode ((fun _ => ([] : List Nat)) ([7] ++ ([[8]] : List (List Nat)).flatten))) ∧
    (concatenateParts (fun _ => [])
        [{ Name := "out", Start := 0, End := 1, Skip := false, isFail := false },
         { Name := "out.part1", Start := 1, End := 2, Skip := false, isFail := false }]
        "x"
        (fun n => if n = "out" then some [7] else
          if n = "out.part1" then some [8] else none)).2 "out" =
      some ([7] ++ ([[8]] : List (List Nat)).flatten) :=
  concatenateParts_checksum_mismatch_keeps_output (fun _ => [])
    { Name := "out", Start := 0, End := 1, Skip := false, isFail := false }
    [{ Name := "out.part1", Start := 1, End := 2, Skip := false, isFail := false }]
    [[8]]
    (fun n => if n = "out" then some [7] else if n = "out.part1" then some [8] else none)
    [7] "x" (by decide)
    (List.Forall₂.cons (by decide) List.Forall₂.nil)
    (by decide) (by decide) (by decide)

/-- C9: for every download with no expected checksum supplied and exactly one
part after skip-filtering, `concatenateParts` returns success immediately:
the filesystem is returned unchanged for every starting filesystem (no file
is opened, read or modified). -/
theorem concatenateParts_single_part_no_checksum_noop
    (sha512Sum : List Nat → List Nat) (parts : List Part) (fs : FileSys)
    (h : (deleteUnnecessaryParts parts).length = 1) :
    concatenateParts sha512Sum (deleteUnnecessaryParts parts) "" fs = (Except.ok (), fs) := by
  unfold concatenateParts
  rw [if_pos ⟨not_hasCheckSum_empty, h⟩]

theorem concatenateParts_single_part_no_checksum_noop_witness :
    concatenateParts (fun _ => [])
      (deleteUnnecessaryParts
        [{ Name := "out", Start := 0, End := 1, Skip := false, isFail := false },
         { Name := "skipped", Start := 1, End := 2, Skip := true, isFail := false }])
      "" (fun _ => none) = (Except.ok (), fun _ => none) :=
  concatenateParts_single_part_no_checksum_noop (fun _ => [])
    [{ Name := "out", Start := 0, End := 1, Skip := false, isFail := false },
     { Name := "skipped", Start := 1, End := 2, Skip := true, isFail := false }]
    (fun _ => none) (by decide)

/-- C10: for every download with a non-empty expected checksum and exactly
one part, `concatenateParts` opens the output file in read-only mode
(`os.O_RDONLY`) and only reads it to compute the digest: the filesystem —
the output file and every other file — is unchanged by the verification
pass, whether the check succeeds or fails. -/
theorem concatenateParts_single_part_checksum_readonly
    (sha512Sum : List Nat → List Nat) (p : Part) (expected : String) (fs : FileSys)
    (hne : expected ≠ "") :
    (concatenateParts sha512Sum [p] expected fs).2 = fs ∧
    concatFileMode expected 1 = some FileMode.rdonly := by
  have hcs : hasCheckSum expected := hasCheckSum_of_ne_empty hne
  constructor
  · rcases hfs : fs p.Name with _ | b0
    · simp [concatenateParts, hcs, hfs]
    · simp only [concatenateParts, hcs, hfs, concatLoop, not_true_eq_false, false_and,
        if_false, decide_True]
      split
      · split <;> rfl
      · rfl
  · unfold concatFileMode
    rw [if_pos hcs, if_pos rfl]

theorem concatenateParts_single_part_checksum_readonly_witness :
    (concatenateParts (fun _ => [])
        [{ Name := "out", Start := 0, End := 1, Skip := false, isFail := false }]
        "x" (fun n => if n = "out" then some [7] else none)).2 =
      (fun n => if n = "out" then some [7] else none) ∧
    concatFileMode "x" 1 = some FileMode.rdonly :=
  concatenateParts_single_part_checksum_readonly (fun _ => [])
    { Name := "out", Start := 0, End := 1, Skip := false, isFail := false }
    "x" (fun n => if n = "out" then some [7] else none) (by decide)

theorem base64EncodeList_length : ∀ l : List Nat,
    (base64EncodeList l).length = 4 * ((l.length + 2) / 3)
  | [] => by simp [base64EncodeList]
  | [b1] => by simp [base64EncodeList]
  | [b1, b2] => by simp [base64EncodeList]
  | b1 :: b2 :: b3 :: rest => by
    have ih := base64EncodeList_length rest
    simp only [base64EncodeList, List.length_cons, ih]
    omega

theorem hexEncodeList_length : ∀ l : List Nat, (hexEncodeList l).length = 2 * l.length
  | [] => by simp [hexEncodeList]
  | b :: rest => by
    have ih := hexEncodeList_length rest
    simp only [hexEncodeList, List.length_cons, ih]
    omega

theorem hexEncode_ne_base64Encode {d : List Nat} (h : d.length = 64) :
    hexEncode d ≠ base64Encode d := by
  intro heq
  have hlen := congrArg String.length heq
  rw [hexEncode, base64Encode, String.length_mk, String.length_mk,
    hexEncodeList_length, base64EncodeList_length, h] at hlen
  omega

theorem hasCheckSum_base64 {d : List Nat} (h : d.length = 64) :
    hasCheckSum (base64Encode d) := by
  unfold hasCheckSum base64Encode
  rw [String.length_mk, base64EncodeList_length, h]
  omega

theorem hasCheckSum_hex {d : List Nat} (h : d.length = 64) :
    hasCheckSum (hexEncode d) := by
  unfold hasCheckSum hexEncode
  rw [String.length_mk, hexEncodeList_length, h]
  omega

/-- C8 as stated is refuted: supplying the hex encoding of the correct
digest does not verify.  With a digest primitive returning 64 zero bytes (so
the hex expectation is by construction the hex encoding of the digest of
the assembled bytes), verification fails with a checksum mismatch, because
the code compares the expectation only against the base64 encoding. -/
theorem hex_encoded_digest_rejected :
    (concatenateParts (fun _ => List.replicate 64 0)
        [{ Name := "out", Start := 0, End := 3, Skip := false, isFail := false }]
        (hexEncode (List.replicate 64 0))
        (fun n => if n = "out" then some [1, 2, 3] else none)).1 =
      Except.error ("sha512 checksum mismatch, expected " ++
        hexEncode (List.replicate 64 0) ++ ", got " ++
        base64Encode (List.replicate 64 0)) := by
  rfl

/-- C8 (amended): `concatenateParts` accepts the expected SHA-512 digest only
in base64 encoding.  When the supplied expectation is the base64 encoding of
the digest of the assembled bytes, verification succeeds; when it is the hex
encoding of that (64-byte) digest, verification always fails with a
checksum-mismatch error, because the code compares the expectation against
the base64 encoding only (88 characters, while hex encodes 128). -/
theorem concatenateParts_base64_only
    (sha512Sum : List Nat → List Nat) (p0 : Part) (rest : List Part)
    (contents : List (List Nat)) (fs : FileSys) (b0 : List Nat)
    (hb0 : fs p0.Name = some b0)
    (hall : List.Forall₂ (fun p c => fs p.Name = some c) rest contents)
    (hnodup : ((p0 :: rest).map Part.Name).Nodup)
    (hdig : (sha512Sum (b0 ++ contents.flatten)).length = 64) :
    (concatenateParts sha512Sum (p0 :: rest)
        (base64Encode (sha512Sum (b0 ++ contents.flatten))) fs).1 = Except.ok () ∧
    (concatenateParts sha512Sum (p0 :: rest)
        (hexEncode (sha512Sum (b0 ++ contents.flatten))) fs).1 =
      Except.error ("sha512 checksum mismatch, expected " ++
        hexEncode (sha512Sum (b0 ++ contents.flatten)) ++ ", got " ++
        base64Encode (sha512Sum (b0 ++ contents.flatten))) := by
  have hcsb : hasCheckSum (base64Encode (sha512Sum (b0 ++ contents.flatten))) :=
    hasCheckSum_base64 hdig
  have hcsh : hasCheckSum (hexEncode (sha512Sum (b0 ++ contents.flatten))) :=
    hasCheckSum_hex hdig
  have hmm : base64Encode (sha512Sum (b0 ++ contents.flatten)) ≠
      hexEncode (sha512Sum (b0 ++ contents.flatten)) :=
    Ne.symm (hexEncode_ne_base64Encode hdig)
  have hnodup0 : p0.Name ∉ rest.map Part.Name := by
    simp only [List.map_cons, List.nodup_cons] at hnodup
    exact hnodup.1
  have hnodup' : (rest.map Part.Name).Nodup := by
    simp only [List.map_cons, List.nodup_cons] at hnodup
    exact hnodup.2
  have hneq : ∀ q ∈ rest, q.Name ≠ p0.Name := by
    intro q hq hq'
    exact hnodup0 (hq' ▸ List.mem_map_of_mem Part.Name hq)
  obtain ⟨fsF, hloop, hlook⟩ :=
    concatLoop_ok p0.Name rest contents fs b0 b0 hb0 hall hneq hnodup'
  constructor
  · simp [concatenateParts, hcsb, hb0, hloop]
  · simp [concatenateParts, hcsh, hb0, hloop, hmm]

theorem concatenateParts_base64_only_witness :
    (concatenateParts (fun _ => List.replicate 64 1)
        [{ Name := "out", Start := 0, End := 3, Skip := false, isFail := false }]
        (base64Encode (List.replicate 64 1))
        (fun n => if n = "out" then some [1, 2, 3] else none)).1 = Except.ok () ∧
    (concatenateParts (fun _ => List.replicate 64 1)
        [{ Name := "out", Start := 0, End := 3, Skip := false, isFail := false }]
        (hexEncode (List.replicate 64 1))
        (fun n => if n = "out" then some [1, 2, 3] else none)).1 =
      Except.error ("sha512 checksum mismatch, expected " ++
        hexEncode (List.replicate 64 1) ++ ", got " ++
        base64Encode (List.replicate 64 1)) :=
  concatenateParts_base64_only (fun _ => List.replicate 64 1)
    { Name := "out", Start := 0, End := 3, Skip := false, isFail := false }
    [] [] (fun n => if n = "out" then some [1, 2, 3] else none) [1, 2, 3]
    (by decide) List.Forall₂.nil (by decide) (by decide)

/-- C5: the code violates this claim.  When at least one part download fails
(here part 2 of 3 fails with "boom"), `DownloadResolved` surfaces the first
error but returns before the cancel-on-failure loop ever runs, so
cancellation of the shared download context is NOT triggered: the cancel
loop (downloader.go lines 117-122) is dead code on the failure path because
of the early return at lines 113-115. -/
theorem downloadResolved_failure_skips_cancel :
    downloadResolvedOutcome [none, some "boom", none] = (false, some "boom") := by
  rfl

/-- C6 as stated is refuted: a terminal 2xx status other than 200 (here 206)
does not yield a resolved `ActualLocation` — `follow` fails with an HTTP
status error, because downloader.go line 169 accepts only `http.StatusOK`. -/
theorem follow_status_206_is_an_error :
    (follow (fun _ => HttpResult.response 206 none 100 "bytes") "u" "o").1 =
      Except.error (FollowError.httpStatus 206) := by
  rfl

theorem followAux_ok_origin (server : String → HttpResult) (out : String) :
    ∀ fuel u rf req a n, followAux server out fuel u rf req = (Except.ok a, n) →
      ∃ l cl ar, server a.Url = HttpResult.response 200 l cl ar := by
  intro fuel
  induction fuel with
  | zero =>
    intro u rf req a n h
    exact absurd h (by simp [followAux])
  | succ f ih =>
    intro u rf req a n h
    rw [followAux] at h
    rcases hsrv : server u with _ | ⟨status, location, cl, ar⟩ <;> rw [hsrv] at h
    · simp at h
    · dsimp only at h
      by_cases hred : isRedirect status
      · rw [if_pos hred] at h
        rcases location with _ | loc
        · simp at h
        · dsimp only at h
          by_cases hmax : rf + 1 > maxRedirects
          · rw [if_pos hmax] at h
            simp at h
          · rw [if_neg hmax] at h
            exact ih loc (rf + 1) (req + 1) a n h
      · rw [if_neg hred] at h
        by_cases h200 : status ≠ 200
        · rw [if_pos h200] at h
          simp at h
        · rw [if_neg h200] at h
          simp only [Prod.mk.injEq, Except.ok.injEq] at h
          push_neg at h200
          refine ⟨location, cl, ar, ?_⟩
          rw [← h.1]
          dsimp only [NewResolvedLocation]
          rw [hsrv, h200]

theorem followAux_step_200 (server : String → HttpResult) (out u : String)
    (l2 : Option String) (cl2 : Int) (ar2 : String)
    (h : server u = HttpResult.response 200 l2 cl2 ar2) (fuel rf req : Nat) :
    followAux server out (fuel + 1) u rf req =
      (Except.ok (NewResolvedLocation u cl2 out (decide (ar2 ≠ ""))), req + 1) := by
  rw [followAux, h]
  dsimp only
  rw [if_neg (by decide : ¬ isRedirect 200), if_neg (by decide : ¬ (200 : Int) ≠ 200)]

/-- C6 (amended): `follow` classifies each response by status code.  A status
strictly between 299 and 400 is a redirect whose `Location` header is
followed (here: a redirect to `loc` followed by a 200 at `loc` resolves at
`loc` in two requests); a terminal status of exactly 200 — and only 200 —
yields a resolved `ActualLocation`, capturing Go's `ContentLength` (`-1`
when absent) and whether `Accept-Ranges` is present and non-empty; every
other terminal status, including 2xx statuses other than 200 such as 206,
fails with an HTTP status error; and a returned `ActualLocation` never
represents a redirect response: it always stems from a status-200 response
at its final URL. -/
theorem follow_classification (server : String → HttpResult) (url out : String)
    (status : Int) (location : Option String) (contentLength : Int) (acceptRanges : String)
    (hresp : server url = HttpResult.response status location contentLength acceptRanges) :
    (status = 200 →
      follow server url out =
        (Except.ok (NewResolvedLocation url contentLength out (decide (acceptRanges ≠ ""))),
          1)) ∧
    (isRedirect status → ∀ loc cl2 ar2 l2, location = some loc →
      server loc = HttpResult.response 200 l2 cl2 ar2 →
      follow server url out =
        (Except.ok (NewResolvedLocation loc cl2 out (decide (ar2 ≠ ""))), 2)) ∧
    (¬ isRedirect status → status ≠ 200 →
      follow server url out = (Except.error (FollowError.httpStatus status), 1)) ∧
    (∀ fuel u rf req a n, followAux server out fuel u rf req = (Except.ok a, n) →
      ∃ l cl ar, server a.Url = HttpResult.response 200 l cl ar) := by
  refine ⟨?_, ?_, ?_, followAux_ok_origin server out⟩
  · intro h200
    subst h200
    exact followAux_step_200 server out url location contentLength acceptRanges hresp
      maxRedirects 0 0
  · intro hred loc cl2 ar2 l2 hloc hloc200
    subst hloc
    unfold follow
    rw [followAux, hresp]
    dsimp only
    rw [if_pos hred, if_neg (by simp [maxRedirects] : ¬ 0 + 1 > maxRedirects)]
    exact followAux_step_200 server out loc l2 cl2 ar2 hloc200 9 1 1
  · intro hnred h200
    unfold follow
    rw [followAux, hresp]
    dsimp only
    rw [if_neg hnred, if_pos h200]

theorem follow_classification_witness :
    ((200 : Int) = 200 →
      follow (fun _ => HttpResult.response 200 none 42 "bytes") "u" "o" =
        (Except.ok (NewResolvedLocation "u" 42 "o" (decide ("bytes" ≠ ""))), 1)) ∧
    (isRedirect 200 → ∀ loc cl2 ar2 l2, (none : Option String) = some loc →
      (fun _ => HttpResult.response 200 none 42 "bytes") loc =
        HttpResult.response 200 l2 cl2 ar2 →
      follow (fun _ => HttpResult.response 200 none 42 "bytes") "u" "o" =
        (Except.ok (NewResolvedLocation loc cl2 "o" (decide (ar2 ≠ ""))), 2)) ∧
    (¬ isRedirect 200 → (200 : Int) ≠ 200 →
      follow (fun _ => HttpResult.response 200 none 42 "bytes") "u" "o" =
        (Except.error (FollowError.httpStatus 200), 1)) ∧
    (∀ fuel u rf req a n,
      followAux (fun _ => HttpResult.response 200 none 42 "bytes") "o" fuel u rf req =
        (Except.ok a, n) →
      ∃ l cl ar, (fun _ => HttpResult.response 200 none 42 "bytes") a.Url =
        HttpResult.response 200 l cl ar) :=
  follow_classification (fun _ => HttpResult.response 200 none 42 "bytes") "u" "o"
    200 none 42 "bytes" rfl

/-- C1: for every non-negative content length `L`, positive `minPartSize` and at
least one CPU, `computeParts` yields a non-empty sequence of parts that is
contiguous, non-overlapping and ordered: the first part starts at 0, each
part's `Start` equals the previous part's `End`, every part satisfies
`0 ≤ Start ≤ End ≤ L`, the last part ends exactly at `L` (so the parts cover
`[0, L)` exactly), and the number of parts is at most the maximum worker
count `getMaxPartCount numCPU`. -/
theorem computeParts_partition_coverage (L mps : Int) (out : String) (numCPU : Nat)
    (hL : 0 ≤ L) (hmps : 0 < mps) (hcpu : 1 ≤ numCPU) :
    computeParts L mps out numCPU ≠ [] ∧
    ((computeParts L mps out numCPU).head?).map Part.Start = some 0 ∧
    List.Chain' (fun a b => b.Start = a.End) (computeParts L mps out numCPU) ∧
    ((computeParts L mps out numCPU).getLast?).map Part.End = some L ∧
    (∀ p ∈ computeParts L mps out numCPU, 0 ≤ p.Start ∧ p.Start ≤ p.End ∧ p.End ≤ L) ∧
    (computeParts L mps out numCPU).length ≤ getMaxPartCount numCPU := by
  have hpc1 : 1 ≤ computePartCount L mps numCPU := computePartCount_pos L mps numCPU hL hmps hcpu
  have hpcle : computePartCount L mps numCPU ≤ getMaxPartCount numCPU :=
    computePartCount_le L mps numCPU hcpu
  have hpsz : 0 ≤ L / ((computePartCount L mps numCPU : Nat) : Int) :=
    partSize_nonneg L _ hL
  unfold computeParts
  rw [if_neg (not_lt.mpr hL)]
  dsimp only
  refine ⟨?_, ?_, ?_, ?_, ?_, ?_⟩
  · apply List.ne_nil_of_length_pos
    rw [buildPartsAux_length]
    omega
  · exact buildPartsAux_head_start out L _ _ _ 0 0 (by omega)
  · exact buildPartsAux_chain out L _ _ _ 0 0
  · exact buildPartsAux_getLast_end out L _ _ _ 0 0 (by omega) (by omega)
  · exact buildPartsAux_bounds out L _ _ hpsz _ 0 0 (le_refl 0) hL
  · rw [buildPartsAux_length]
    exact hpcle

theorem computeParts_partition_coverage_witness :
    computeParts 7 3 "o" 1 ≠ [] ∧
    ((computeParts 7 3 "o" 1).head?).map Part.Start = some 0 ∧
    List.Chain' (fun a b => b.Start = a.End) (computeParts 7 3 "o" 1) ∧
    ((computeParts 7 3 "o" 1).getLast?).map Part.End = some 7 ∧
    (∀ p ∈ computeParts 7 3 "o" 1, 0 ≤ p.Start ∧ p.Start ≤ p.End ∧ p.End ≤ 7) ∧
    (computeParts 7 3 "o" 1).length ≤ getMaxPartCount 1 :=
  computeParts_partition_coverage 7 3 "o" 1 (by decide) (by decide) (by decide)

/-- C2: for every non-negative content length `L`, positive `minPartSize` and
at least one CPU, `computeParts` produces exactly
`clamp(L / minPartSize, 1, maxWorkers)` parts, each part except the last has
width exactly `L / partCount`, and the last part ends exactly at `L`
(absorbing the integer-division remainder); in particular a 20 MiB resource
with `minPartSize = 5 MiB` and 8 available workers (4 CPUs) yields 4 parts
of 5 MiB each. -/
theorem computeParts_clamped_equal_widths (L mps : Int) (out : String) (numCPU : Nat)
    (hL : 0 ≤ L) (hmps : 0 < mps) (hcpu : 1 ≤ numCPU) :
    (computeParts L mps out numCPU).length =
      max 1 (min (L / mps).toNat (getMaxPartCount numCPU)) ∧
    (∀ p ∈ (computeParts L mps out numCPU).dropLast,
      p.End - p.Start = L / (((computeParts L mps out numCPU).length : Nat) : Int)) ∧
    ((computeParts L mps out numCPU).getLast?).map Part.End = some L ∧
    computeParts (20 * 1024 * 1024) minPartSize "o" 4 =
      [{ Name := "o", Start := 0, End := 5242880, Skip := false, isFail := false },
       { Name := "o.part1", Start := 5242880, End := 10485760, Skip := false, isFail := false },
       { Name := "o.part2", Start := 10485760, End := 15728640, Skip := false, isFail := false },
       { Name := "o.part3", Start := 15728640, End := 20971520, Skip := false, isFail := false }] := by
  have hpc1 : 1 ≤ computePartCount L mps numCPU := computePartCount_pos L mps numCPU hL hmps hcpu
  have hclamp := computePartCount_eq_clamp L mps numCPU hL hmps hcpu
  have hpsz : 0 ≤ L / ((computePartCount L mps numCPU : Nat) : Int) :=
    partSize_nonneg L _ hL
  have hmul : ((computePartCount L mps numCPU : Nat) : Int) *
      (L / ((computePartCount L mps numCPU : Nat) : Int)) ≤ L :=
    partCount_mul_partSize_le L _ hL hpc1
  have hlen : (computeParts L mps out numCPU).length = computePartCount L mps numCPU := by
    unfold computeParts
    rw [if_neg (not_lt.mpr hL)]
    dsimp only
    rw [buildPartsAux_length]
  refine ⟨by rw [hlen, hclamp], ?_, ?_, by decide⟩
  · rw [hlen]
    unfold computeParts
    rw [if_neg (not_lt.mpr hL)]
    dsimp only
    exact buildPartsAux_width out L _ _ hpsz hmul _ 0 0 (by omega) (by simp)
  · unfold computeParts
    rw [if_neg (not_lt.mpr hL)]
    dsimp only
    exact buildPartsAux_getLast_end out L _ _ _ 0 0 (by omega) (by omega)

theorem computeParts_clamped_equal_widths_witness :
    (computeParts (20 * 1024 * 1024) minPartSize "o" 4).length =
      max 1 (min ((20 * 1024 * 1024 : Int) / minPartSize).toNat (getMaxPartCount 4)) ∧
    (∀ p ∈ (computeParts (20 * 1024 * 1024) minPartSize "o" 4).dropLast,
      p.End - p.Start =
        (20 * 1024 * 1024 : Int) /
          (((computeParts (20 * 1024 * 1024) minPartSize "o" 4).length : Nat) : Int)) ∧
    ((computeParts (20 * 1024 * 1024) minPartSize "o" 4).getLast?).map Part.End =
      some (20 * 1024 * 1024) ∧
    computeParts (20 * 1024 * 1024) minPartSize "o" 4 =
      [{ Name := "o", Start := 0, End := 5242880, Skip := false, isFail := false },
       { Name := "o.part1", Start := 5242880, End := 10485760, Skip := false, isFail := false },
       { Name := "o.part2", Start := 10485760, End := 15728640, Skip := false, isFail := false },
       { Name := "o.part3", Start := 15728640, End := 20971520, Skip := false, isFail := false }] :=
  computeParts_clamped_equal_widths (20 * 1024 * 1024) minPartSize "o" 4
    (by decide) (by decide) (by decide)

/-- C7: whenever the resolved content length is negative (unknown),
`computeParts` produces exactly one part spanning the whole resource: its name
is the final output file name, its start is 0 and its end is the `-1`
sentinel meaning read to end. -/
theorem computeParts_unknown_length_single_part (L mps : Int) (out : String) (numCPU : Nat)
    (hL : L < 0) :
    computeParts L mps out numCPU =
      [{ Name := out, Start := 0, End := -1, Skip := false, isFail := false }] := by
  unfold computeParts
  rw [if_pos hL]

theorem computeParts_unknown_length_single_part_witness :
    computeParts (-1) minPartSize "o" 4 =
      [{ Name := "o", Start := 0, End := -1, Skip := false, isFail := false }] :=
  computeParts_unknown_length_single_part (-1) minPartSize "o" 4 (by decide)

end AppBuilder
